import Mathlib

/-!
Verification of the Russian Snowball-style stemmer in `src/main.py`.

Words are modelled as `List Char` (Python strings are sequences of code
points).  Each compiled regular expression of the form `(alt₁|alt₂|…)$`
used by the stemmer is modelled as a `Rule`: an ordered list of branches,
each branch being either a plain list of literal suffix alternatives or an
ignore-class branch `[ая](alt₁|…)` whose match includes the class letter.
Python's `re.search(word, pos)` scans start positions left to right from
`pos`; because every pattern is anchored with `$`, a match at start `s`
means the tail `word[s:]` equals the literal of some alternative (for an
ignore branch: a class letter followed by the literal).  `ruleSearchAux`
reproduces exactly this leftmost-start search.  The lookbehind rule
`((?<=н)н)$` gets its own primitive `cutNN`, since a lookbehind may
inspect the character before the search start position.
-/

namespace Stemmer

/-- The vowel set of `Stemmer._vowel` in `src/main.py`. -/
def vowels : List Char := ['а', 'е', 'и', 'о', 'у', 'ы', 'э', 'ю', 'я']

/-- Whether a character is one of the stemmer's vowels. -/
def isVowel (c : Char) : Bool := vowels.contains c

/-- One alternation branch of a suffix pattern: an optional ignore class
(the `(?P<ignore>[ая])` group, whose letter is part of the match) and the
literal suffix alternatives. -/
structure Branch where
  ignoreClass : Option (List Char)
  alts : List (List Char)

/-- A suffix pattern `(branch₁|branch₂|…)$` as an ordered list of branches. -/
abbrev Rule := List Branch

/-- Whether a branch matches the whole tail `t` (the `$` anchor forces the
match to consume `t` exactly).  Returns the length of the ignore group on
success: `1` for an ignore branch, `0` otherwise. -/
def branchMatch (b : Branch) (t : List Char) : Option Nat :=
  match b.ignoreClass with
  | none => if t ∈ b.alts then some 0 else none
  | some cls =>
    match t with
    | [] => none
    | c :: rest => if c ∈ cls ∧ rest ∈ b.alts then some 1 else none

/-- Whether some branch of the rule, tried in declared order, matches the
whole tail `t`; returns the matched ignore-group length. -/
def ruleMatchAt (r : Rule) (t : List Char) : Option Nat :=
  match r with
  | [] => none
  | b :: bs =>
    match branchMatch b t with
    | some k => some k
    | none => ruleMatchAt bs t

/-- Leftmost-start regex search: `t` is the remaining tail of the word and
`n` the absolute index of its head.  Returns the first start index (and
ignore-group length) at which the anchored rule matches, like
`ending.search(word, pos)` in `Stemmer._cut`. -/
def ruleSearchAux (r : Rule) : List Char → Nat → Option (Nat × Nat)
  | [], n =>
    match ruleMatchAt r [] with
    | some k => some (n, k)
    | none => none
  | c :: rest, n =>
    match ruleMatchAt r (c :: rest) with
    | some k => some (n, k)
    | none => ruleSearchAux r rest (n + 1)

/-- `Stemmer._cut`: search the anchored rule at or after `pos`; on a match
keep everything before the match start plus the matched ignore letter
(`word[:match.start() + len(ignore)]`), otherwise return the word
unchanged. -/
def cut (w : List Char) (r : Rule) (pos : Nat) : Bool × List Char :=
  match ruleSearchAux r (w.drop pos) pos with
  | some (s, k) => (true, w.take (s + k))
  | none => (false, w)

/-- `Stemmer._cut` applied to `_re_nn`, the lookbehind pattern `((?<=н)н)$`:
it matches the final `н` (at start index `length - 1`, which must be at or
after `pos`) only when the preceding character is also `н`, and removes
exactly that one letter. -/
def cutNN (w : List Char) (pos : Nat) : Bool × List Char :=
  if w.drop (w.length - 2) = ['н', 'н'] ∧ pos + 1 ≤ w.length then
    (true, w.take (w.length - 1))
  else (false, w)

/-- `Stemmer._re_perfective_gerund`:
`(((?P<ignore>[ая])(в|вши|вшись))|(ив|ивши|ившись|ыв|ывши|ывшись))$`. -/
def perfectiveGerund : Rule :=
  [⟨some ['а', 'я'], [['в'], ['в', 'ш', 'и'], ['в', 'ш', 'и', 'с', 'ь']]⟩,
   ⟨none, [['и', 'в'], ['и', 'в', 'ш', 'и'], ['и', 'в', 'ш', 'и', 'с', 'ь'],
           ['ы', 'в'], ['ы', 'в', 'ш', 'и'], ['ы', 'в', 'ш', 'и', 'с', 'ь']]⟩]

/-- `Stemmer._re_adjective`. -/
def adjective : Rule :=
  [⟨none, [['е', 'е'], ['и', 'е'], ['ы', 'е'], ['о', 'е'], ['и', 'м', 'и'],
           ['ы', 'м', 'и'], ['е', 'й'], ['и', 'й'], ['ы', 'й'], ['о', 'й'],
           ['е', 'м'], ['и', 'м'], ['ы', 'м'], ['о', 'м'], ['е', 'г', 'о'],
           ['о', 'г', 'о'], ['е', 'м', 'у'], ['о', 'м', 'у'], ['и', 'х'],
           ['ы', 'х'], ['у', 'ю'], ['ю', 'ю'], ['а', 'я'], ['я', 'я'],
           ['о', 'ю'], ['е', 'ю']]⟩]

/-- `Stemmer._re_participle`:
`(((?P<ignore>[ая])(ем|нн|вш|ющ|щ))|(ивш|ывш|ующ))$`. -/
def participle : Rule :=
  [⟨some ['а', 'я'], [['е', 'м'], ['н', 'н'], ['в', 'ш'], ['ю', 'щ'], ['щ']]⟩,
   ⟨none, [['и', 'в', 'ш'], ['ы', 'в', 'ш'], ['у', 'ю', 'щ']]⟩]

/-- `Stemmer._re_reflexive`: `(ся|сь)$`. -/
def reflexive : Rule := [⟨none, [['с', 'я'], ['с', 'ь']]⟩]

/-- `Stemmer._re_verb`. -/
def verb : Rule :=
  [⟨some ['а', 'я'],
    [['л', 'а'], ['н', 'а'], ['е', 'т', 'е'], ['й', 'т', 'е'], ['л', 'и'],
     ['й'], ['л'], ['е', 'м'], ['н'], ['л', 'о'], ['н', 'о'], ['е', 'т'],
     ['ю', 'т'], ['н', 'ы'], ['т', 'ь'], ['е', 'ш', 'ь'], ['н', 'н', 'о']]⟩,
   ⟨none,
    [['и', 'л', 'а'], ['ы', 'л', 'а'], ['е', 'н', 'а'], ['е', 'й', 'т', 'е'],
     ['у', 'й', 'т', 'е'], ['и', 'т', 'е'], ['и', 'л', 'и'], ['ы', 'л', 'и'],
     ['е', 'й'], ['у', 'й'], ['и', 'л'], ['ы', 'л'], ['и', 'м'], ['ы', 'м'],
     ['е', 'н'], ['и', 'л', 'о'], ['ы', 'л', 'о'], ['е', 'н', 'о'],
     ['я', 'т'], ['у', 'е', 'т'], ['у', 'ю', 'т'], ['и', 'т'], ['ы', 'т'],
     ['е', 'н', 'ы'], ['и', 'т', 'ь'], ['ы', 'т', 'ь'], ['и', 'ш', 'ь'],
     ['у', 'ю'], ['ю']]⟩]

/-- `Stemmer._re_noun`. -/
def noun : Rule :=
  [⟨none, [['а'], ['е', 'в'], ['о', 'в'], ['и', 'е'], ['ь', 'е'], ['е'],
           ['и', 'я', 'м', 'и'], ['я', 'м', 'и'], ['а', 'м', 'и'],
           ['е', 'и'], ['и', 'и'], ['и'], ['и', 'е', 'й'], ['е', 'й'],
           ['о', 'й'], ['и', 'й'], ['й'], ['и', 'я', 'м'], ['я', 'м'],
           ['и', 'е', 'м'], ['е', 'м'], ['а', 'м'], ['о', 'м'], ['о'],
           ['у'], ['а', 'х'], ['и', 'я', 'х'], ['я', 'х'], ['ы'], ['ь'],
           ['и', 'ю'], ['ь', 'ю'], ['ю'], ['и', 'я'], ['ь', 'я'], ['я']]⟩]

/-- `Stemmer._re_superlative`: `(ейш|ейше)$`. -/
def superlative : Rule := [⟨none, [['е', 'й', 'ш'], ['е', 'й', 'ш', 'е']]⟩]

/-- `Stemmer._re_derivational`: `(ост|ость)$`. -/
def derivational : Rule := [⟨none, [['о', 'с', 'т'], ['о', 'с', 'т', 'ь']]⟩]

/-- `Stemmer._re_i`: `и$`. -/
def iRule : Rule := [⟨none, [['и']]⟩]

/-- `Stemmer._re_`: `ь$`. -/
def softSign : Rule := [⟨none, [['ь']]⟩]

/-- `Stemmer._find_rv`, auxiliary scan: `n` is the absolute index of the
head of `t`; returns the index just after the first vowel, or the word
length when there is none. -/
def findRVAux : List Char → Nat → Nat
  | [], n => n
  | c :: rest, n => if isVowel c then n + 1 else findRVAux rest (n + 1)

/-- `Stemmer._find_rv`: offset just after the first vowel, or the word
length if the word has no vowel. -/
def find_rv (w : List Char) : Nat := findRVAux w 0

/-- Search for the pattern `[vowel][non-vowel]` (`Stemmer._re_r1`) in the
tail `t` whose head has absolute index `n`; returns the match end
(start + 2) of the leftmost occurrence. -/
def searchVNFrom : List Char → Nat → Option Nat
  | a :: b :: rest, n =>
    if isVowel a && !isVowel b then some (n + 2)
    else searchVNFrom (b :: rest) (n + 1)
  | _, _ => none

/-- `Stemmer._find_r2`: end of the second vowel/non-vowel occurrence, the
second search resuming at the end of the first; the word length when
either search fails. -/
def find_r2 (w : List Char) : Nat :=
  match searchVNFrom w 0 with
  | none => w.length
  | some r1 =>
    match searchVNFrom (w.drop r1) r1 with
    | none => w.length
    | some r2 => r2

/-- `Stemmer._step_1`: perfective gerund, else reflexive then
adjective (+participle) / verb / noun, gated at the RV position. -/
def step1 (w : List Char) (rv : Nat) : List Char :=
  match cut w perfectiveGerund rv with
  | (true, w1) => w1
  | (false, w1) =>
    match cut ((cut w1 reflexive rv).2) adjective rv with
    | (true, w2) => (cut w2 participle rv).2
    | (false, w2) =>
      match cut w2 verb rv with
      | (true, w3) => w3
      | (false, w3) => (cut w3 noun rv).2

/-- `Stemmer._step_2`: strip a trailing `и` at or after RV. -/
def step2 (w : List Char) (rv : Nat) : List Char := (cut w iRule rv).2

/-- `Stemmer._step_3`: strip a derivational suffix at or after R2. -/
def step3 (w : List Char) (r2 : Nat) : List Char := (cut w derivational r2).2

/-- `Stemmer._step_4`: superlative, then the `нн` collapse, and the soft
sign only when the `нн` collapse did not match. -/
def step4 (w : List Char) (rv : Nat) : List Char :=
  match cutNN ((cut w superlative rv).2) rv with
  | (true, w1) => w1
  | (false, w1) => (cut w1 softSign rv).2

/-- `Stemmer.stem`: compute RV and R2 once from the input, then thread the
word through the four steps. -/
def stem (w : List Char) : List Char :=
  step4 (step3 (step2 (step1 w (find_rv w)) (find_rv w)) (find_r2 w)) (find_rv w)

/-- Which cuts of step 1 were attempted and matched: `gerund` is always
attempted; the other fields are `none` when the corresponding cut was
never attempted, `some b` when it was attempted with match flag `b`. -/
structure Step1Trace where
  gerund : Bool
  reflexive : Option Bool
  adjective : Option Bool
  participle : Option Bool
  verb : Option Bool
  noun : Option Bool
deriving DecidableEq

/-- `Stemmer._step_1` instrumented with the attempted/matched record of
each of its cuts; the word component follows the source control flow
exactly. -/
def step1Traced (w : List Char) (rv : Nat) : List Char × Step1Trace :=
  match cut w perfectiveGerund rv with
  | (true, w1) => (w1, ⟨true, none, none, none, none, none⟩)
  | (false, w1) =>
    match cut w1 reflexive rv with
    | (rb, rw) =>
      match cut rw adjective rv with
      | (true, w2) =>
        match cut w2 participle rv with
        | (pb, pw) => (pw, ⟨false, some rb, some true, some pb, none, none⟩)
      | (false, w2) =>
        match cut w2 verb rv with
        | (true, w3) => (w3, ⟨false, some rb, some false, none, some true, none⟩)
        | (false, w3) =>
          match cut w3 noun rv with
          | (nb, nw) => (nw, ⟨false, some rb, some false, none, some false, some nb⟩)

/-- Which cuts of step 4 matched: the superlative and `нн` cuts are always
attempted; the soft-sign cut only when the `нн` cut did not match. -/
structure Step4Trace where
  superl : Bool
  nn : Bool
  soft : Option Bool
deriving DecidableEq

/-- `Stemmer._step_4` instrumented with the attempted/matched record of
each of its cuts. -/
def step4Traced (w : List Char) (rv : Nat) : List Char × Step4Trace :=
  match cut w superlative rv with
  | (sb, w1) =>
    match cutNN w1 rv with
    | (true, w2) => (w2, ⟨sb, true, none⟩)
    | (false, w2) =>
      match cut w2 softSign rv with
      | (fb, w3) => (w3, ⟨sb, false, some fb⟩)

/-- Modelled from the spec (section 4.1, findR2): scan the word left to
right from index `i` for a vowel immediately followed by a non-vowel;
`fuel` bounds the scan.  Returns the start index of the first occurrence. -/
def firstVNFromAux (w : List Char) : Nat → Nat → Option Nat
  | 0, _ => none
  | fuel + 1, i =>
    if decide (i + 1 < w.length) && isVowel (w.getD i ' ') && !isVowel (w.getD (i + 1) ' ') then
      some i
    else firstVNFromAux w fuel (i + 1)

/-- Modelled from the spec: first index `j ≥ i` at which a vowel is
immediately followed by a non-vowel. -/
def firstVN (w : List Char) (i : Nat) : Option Nat :=
  firstVNFromAux w (w.length - i) i

/-- Modelled from the spec (section 4.1, findR2, written from the spec's
words, to be compared with `find_r2` from the source): R1 is the offset
after the first vowel/non-vowel occurrence scanning left to right; if R1
is not found return the word length, otherwise resume the same scan
starting at R1 and return the offset after the second occurrence, or the
word length if it is not found. -/
def findR2Spec (w : List Char) : Nat :=
  match firstVN w 0 with
  | none => w.length
  | some i =>
    match firstVN w (i + 2) with
    | none => w.length
    | some j => j + 2

/-! ### Search lemmas -/

/-- The search never reports a start before the position it began at. -/
theorem search_ge (r : Rule) : ∀ (t : List Char) (n s k : Nat),
    ruleSearchAux r t n = some (s, k) → n ≤ s := by
  intro t
  induction t with
  | nil =>
    intro n s k h
    simp only [ruleSearchAux] at h
    split at h
    · cases h; omega
    · cases h
  | cons c rest ih =>
    intro n s k h
    simp only [ruleSearchAux] at h
    split at h
    · cases h; omega
    · have := ih (n + 1) s k h; omega

/-- Completeness of the leftmost search: a match of the anchored rule at
offset `i` into the searched tail guarantees the search succeeds, at a
start no later than that match. -/
theorem search_complete (r : Rule) : ∀ (t : List Char) (n i k : Nat),
    ruleMatchAt r (t.drop i) = some k →
    ∃ s kk, ruleSearchAux r t n = some (s, kk) ∧ s ≤ n + i := by
  intro t
  induction t with
  | nil =>
    intro n i k h
    rw [List.drop_nil] at h
    exact ⟨n, k, by simp only [ruleSearchAux, h], by omega⟩
  | cons c rest ih =>
    intro n i k h
    cases i with
    | zero =>
      rw [List.drop_zero] at h
      exact ⟨n, k, by simp only [ruleSearchAux, h], by omega⟩
    | succ j =>
      cases hm : ruleMatchAt r (c :: rest) with
      | some kk => exact ⟨n, kk, by simp only [ruleSearchAux, hm], by omega⟩
      | none =>
        rw [List.drop_succ_cons] at h
        obtain ⟨s, kk, hs, hle⟩ := ih (n + 1) j k h
        exact ⟨s, kk, by simp only [ruleSearchAux, hm]; exact hs, by omega⟩

/-- When no match starts inside the front part `xs`, searching `xs ++ ys`
is the same as searching `ys` at the shifted offset. -/
theorem search_append (r : Rule) : ∀ (xs ys : List Char) (n : Nat),
    (∀ i, i < xs.length → ruleMatchAt r ((xs ++ ys).drop i) = none) →
    ruleSearchAux r (xs ++ ys) n = ruleSearchAux r ys (n + xs.length) := by
  intro xs
  induction xs with
  | nil => intro ys n _; simp
  | cons x xs ih =>
    intro ys n h
    have h0 : ruleMatchAt r (x :: (xs ++ ys)) = none := by
      have := h 0 (by simp)
      simpa using this
    show ruleSearchAux r (x :: (xs ++ ys)) n = _
    simp only [ruleSearchAux, h0]
    rw [ih ys (n + 1) ?_]
    · congr 1
      simp only [List.length_cons]
      omega
    · intro i hi
      have := h (i + 1) (by simpa using Nat.succ_lt_succ hi)
      simpa using this

/-- A rule none of whose possible full matches (a literal, or an ignore
letter followed by a literal) satisfies `P` never matches a tail
satisfying `P`. -/
theorem ruleMatchAt_none_P (r : Rule) (P : List Char → Bool)
    (hr : (r.all fun b =>
      match b.ignoreClass with
      | none => b.alts.all fun a => !P a
      | some cls => cls.all fun c => b.alts.all fun a => !P (c :: a)) = true)
    (t : List Char) (ht : P t = true) : ruleMatchAt r t = none := by
  induction r with
  | nil => rfl
  | cons b bs ih =>
    simp only [List.all_cons, Bool.and_eq_true] at hr
    obtain ⟨hb, hbs⟩ := hr
    obtain ⟨ic, alts⟩ := b
    have hbm : branchMatch ⟨ic, alts⟩ t = none := by
      cases ic with
      | none =>
        dsimp only at hb
        simp only [branchMatch]
        split
        · rename_i hmem
          have := List.all_eq_true.mp hb _ hmem
          rw [ht] at this
          simp at this
        · rfl
      | some cls =>
        dsimp only at hb
        cases t with
        | nil => rfl
        | cons c rest =>
          simp only [branchMatch]
          split
          · rename_i hcr
            have h1 := List.all_eq_true.mp hb _ hcr.1
            have h2 := List.all_eq_true.mp h1 _ hcr.2
            rw [ht] at h2
            simp at h2
          · rfl
    simp only [ruleMatchAt, hbm]
    exact ih hbs

/-! ### Cut lemmas -/

/-- The bundled facts about a single cut at minimum position `pos`:
it preserves any shorter front of the word, never shortens the word below
`min m (length)` for `m ≤ pos`, and the result is a front of the input. -/
theorem cut_keeps (w : List Char) (r : Rule) (pos m : Nat) (hm : m ≤ pos) :
    ((cut w r pos).2).take m = w.take m ∧
    min m w.length ≤ ((cut w r pos).2).length ∧
    ∃ n, (cut w r pos).2 = w.take n := by
  unfold cut
  cases hs : ruleSearchAux r (w.drop pos) pos with
  | none =>
    refine ⟨rfl, ?_, ⟨w.length, (List.take_length w).symm⟩⟩
    show min m w.length ≤ w.length
    omega
  | some sk =>
    obtain ⟨s, k⟩ := sk
    have hge := search_ge r (w.drop pos) pos s k hs
    refine ⟨?_, ?_, ⟨s + k, rfl⟩⟩
    · rw [List.take_take]
      congr 1
      omega
    · rw [List.length_take]
      omega

/-- The non-lookbehind cuts: `(false, word)` means the word is unchanged. -/
theorem cut_false (w : List Char) (r : Rule) (pos : Nat) :
    (cut w r pos).1 = false → (cut w r pos).2 = w := by
  unfold cut
  cases hs : ruleSearchAux r (w.drop pos) pos with
  | none => intro _; rfl
  | some sk => obtain ⟨s, k⟩ := sk; intro h; cases h

/-- The bundled facts of `cut_keeps`, for the lookbehind cut `cutNN`. -/
theorem cutNN_keeps (w : List Char) (pos m : Nat) (hm : m ≤ pos) :
    ((cutNN w pos).2).take m = w.take m ∧
    min m w.length ≤ ((cutNN w pos).2).length ∧
    ∃ n, (cutNN w pos).2 = w.take n := by
  unfold cutNN
  split
  · rename_i hcond
    refine ⟨?_, ?_, ⟨w.length - 1, rfl⟩⟩
    · rw [List.take_take]
      congr 1
      omega
    · rw [List.length_take]
      omega
  · refine ⟨rfl, ?_, ⟨w.length, (List.take_length w).symm⟩⟩
    show min m w.length ≤ w.length
    omega

/-- `cutNN` reports `false` only with the word unchanged. -/
theorem cutNN_false (w : List Char) (pos : Nat) :
    (cutNN w pos).1 = false → (cutNN w pos).2 = w := by
  unfold cutNN
  split
  · intro h; cases h
  · intro _; rfl

/-- Transitivity of the bundled `cut_keeps` facts along a chain of cuts. -/
theorem keeps_trans {w a b : List Char} {m : Nat}
    (h1 : a.take m = w.take m ∧ min m w.length ≤ a.length ∧ ∃ n, a = w.take n)
    (h2 : b.take m = a.take m ∧ min m a.length ≤ b.length ∧ ∃ n, b = a.take n) :
    b.take m = w.take m ∧ min m w.length ≤ b.length ∧ ∃ n, b = w.take n := by
  obtain ⟨e1, l1, n1, hn1⟩ := h1
  obtain ⟨e2, l2, n2, hn2⟩ := h2
  refine ⟨e2.trans e1, by omega, ⟨min n2 n1, ?_⟩⟩
  rw [hn2, hn1, List.take_take]

/-! ### Step lemmas -/

/-- The bundled `cut_keeps` facts for step 1: all its cuts are gated at
the same position. -/
theorem step1_keeps (w : List Char) (rv m : Nat) (hm : m ≤ rv) :
    (step1 w rv).take m = w.take m ∧
    min m w.length ≤ (step1 w rv).length ∧
    ∃ n, step1 w rv = w.take n := by
  unfold step1
  split
  · rename_i w1 heq
    have k1 := cut_keeps w perfectiveGerund rv m hm
    rw [heq] at k1
    exact k1
  · rename_i w1 heq
    have k1 := cut_keeps w perfectiveGerund rv m hm
    rw [heq] at k1
    have k2 := cut_keeps w1 reflexive rv m hm
    split
    · rename_i w2 heq2
      have k3 := cut_keeps ((cut w1 reflexive rv).2) adjective rv m hm
      rw [heq2] at k3
      have k4 := cut_keeps w2 participle rv m hm
      exact keeps_trans (keeps_trans (keeps_trans k1 k2) k3) k4
    · rename_i w2 heq2
      have k3 := cut_keeps ((cut w1 reflexive rv).2) adjective rv m hm
      rw [heq2] at k3
      split
      · rename_i w3 heq3
        have k4 := cut_keeps w2 verb rv m hm
        rw [heq3] at k4
        exact keeps_trans (keeps_trans (keeps_trans k1 k2) k3) k4
      · rename_i w3 heq3
        have k4 := cut_keeps w2 verb rv m hm
        rw [heq3] at k4
        have k5 := cut_keeps w3 noun rv m hm
        exact keeps_trans (keeps_trans (keeps_trans (keeps_trans k1 k2) k3) k4) k5

/-- The bundled `cut_keeps` facts for step 2. -/
theorem step2_keeps (w : List Char) (rv m : Nat) (hm : m ≤ rv) :
    (step2 w rv).take m = w.take m ∧
    min m w.length ≤ (step2 w rv).length ∧
    ∃ n, step2 w rv = w.take n :=
  cut_keeps w iRule rv m hm

/-- The bundled `cut_keeps` facts for step 3, gated at the R2 position. -/
theorem step3_keeps (w : List Char) (r2 m : Nat) (hm : m ≤ r2) :
    (step3 w r2).take m = w.take m ∧
    min m w.length ≤ (step3 w r2).length ∧
    ∃ n, step3 w r2 = w.take n :=
  cut_keeps w derivational r2 m hm

/-- The bundled `cut_keeps` facts for step 4. -/
theorem step4_keeps (w : List Char) (rv m : Nat) (hm : m ≤ rv) :
    (step4 w rv).take m = w.take m ∧
    min m w.length ≤ (step4 w rv).length ∧
    ∃ n, step4 w rv = w.take n := by
  unfold step4
  have k1 := cut_keeps w superlative rv m hm
  split
  · rename_i w1 heq
    have k2 := cutNN_keeps ((cut w superlative rv).2) rv m hm
    rw [heq] at k2
    exact keeps_trans k1 k2
  · rename_i w1 heq
    have k2 := cutNN_keeps ((cut w superlative rv).2) rv m hm
    rw [heq] at k2
    have k3 := cut_keeps w1 softSign rv m hm
    exact keeps_trans (keeps_trans k1 k2) k3

/-- The bundled facts for the whole `stem`: with `m` at most both RV and
R2, the first `m` characters survive, the result keeps at least
`min m (length)` characters, and the result is a front of the input. -/
theorem stem_keeps (w : List Char) (m : Nat)
    (hrv : m ≤ find_rv w) (hr2 : m ≤ find_r2 w) :
    (stem w).take m = w.take m ∧
    min m w.length ≤ (stem w).length ∧
    ∃ n, stem w = w.take n := by
  unfold stem
  have k1 := step1_keeps w (find_rv w) m hrv
  have k2 := step2_keeps (step1 w (find_rv w)) (find_rv w) m hrv
  have k3 := step3_keeps (step2 (step1 w (find_rv w)) (find_rv w)) (find_r2 w) m hr2
  have k4 := step4_keeps (step3 (step2 (step1 w (find_rv w)) (find_rv w)) (find_r2 w))
      (find_rv w) m hrv
  exact keeps_trans (keeps_trans (keeps_trans k1 k2) k3) k4

/-! ### Region locator lemmas -/

/-- The RV scan never goes past the end of the word. -/
theorem findRVAux_le : ∀ (t : List Char) (n : Nat), findRVAux t n ≤ n + t.length := by
  intro t
  induction t with
  | nil => intro n; simp [findRVAux]
  | cons c rest ih =>
    intro n
    simp only [findRVAux, List.length_cons]
    split
    · omega
    · have := ih (n + 1); omega

/-- RV is at most the word length. -/
theorem find_rv_le (w : List Char) : find_rv w ≤ w.length := by
  have := findRVAux_le w 0
  simpa [find_rv] using this

/-- The RV scan moves at least one character when the tail holds a vowel. -/
theorem findRVAux_ge_of_vowel : ∀ (t : List Char) (n : Nat),
    (∃ c ∈ t, isVowel c = true) → n + 1 ≤ findRVAux t n := by
  intro t
  induction t with
  | nil => intro n h; obtain ⟨c, hc, _⟩ := h; cases hc
  | cons c rest ih =>
    intro n h
    simp only [findRVAux]
    split
    · omega
    · rename_i hnv
      obtain ⟨d, hd, hdv⟩ := h
      rcases List.mem_cons.mp hd with rfl | hd2
      · rw [hdv] at hnv; simp at hnv
      · have := ih (n + 1) ⟨d, hd2, hdv⟩
        omega

/-- A word with no vowel has RV equal to its length. -/
theorem findRVAux_no_vowel : ∀ (t : List Char) (n : Nat),
    (∀ c ∈ t, isVowel c = false) → findRVAux t n = n + t.length := by
  intro t
  induction t with
  | nil => intro n _; simp [findRVAux]
  | cons c rest ih =>
    intro n h
    have hc := h c (by simp)
    simp only [findRVAux, hc, List.length_cons]
    rw [if_neg (by simp), ih (n + 1) fun d hd => h d (by simp [hd])]
    omega

/-- The vowel/non-vowel scan reports an end at least two past its start. -/
theorem searchVN_ge : ∀ (t : List Char) (n m : Nat),
    searchVNFrom t n = some m → n + 2 ≤ m := by
  intro t
  induction t with
  | nil => intro n m h; cases h
  | cons a rest ih =>
    intro n m h
    cases rest with
    | nil => cases h
    | cons b rest2 =>
      simp only [searchVNFrom] at h
      split at h
      · cases h; omega
      · have := ih (n + 1) m h; omega

/-- The vowel/non-vowel scan fails on tails shorter than the pattern. -/
theorem searchVN_short : ∀ (t : List Char) (n : Nat),
    t.length ≤ 1 → searchVNFrom t n = none := by
  intro t n h
  match t with
  | [] => rfl
  | [a] => rfl
  | a :: b :: rest => simp at h

/-- The vowel/non-vowel scan fails on a word with no vowel. -/
theorem searchVN_no_vowel : ∀ (t : List Char) (n : Nat),
    (∀ c ∈ t, isVowel c = false) → searchVNFrom t n = none := by
  intro t
  induction t with
  | nil => intro n _; rfl
  | cons a rest ih =>
    intro n h
    cases rest with
    | nil => rfl
    | cons b rest2 =>
      have ha := h a (by simp)
      simp only [searchVNFrom, ha]
      simp only [Bool.false_and, if_false]
      exact ih (n + 1) fun d hd => h d (by simp [List.mem_cons.mp hd])

/-! ### No-op lemmas at the end position -/

/-- A rule that cannot match the empty tail finds nothing when the search
starts at the end of the word. -/
theorem cut_at_length (w : List Char) (r : Rule) (hr : ruleMatchAt r [] = none) :
    cut w r w.length = (false, w) := by
  unfold cut
  rw [List.drop_length]
  simp only [ruleSearchAux, hr]

/-- `cutNN` finds nothing when the search starts at the end of the word. -/
theorem cutNN_at_length (w : List Char) : cutNN w w.length = (false, w) := by
  unfold cutNN
  rw [if_neg]
  intro h
  omega

/-- Step 1 is the identity when RV is the word length. -/
theorem step1_at_length (w : List Char) : step1 w w.length = w := by
  unfold step1
  rw [cut_at_length w perfectiveGerund (by decide)]
  simp only
  rw [cut_at_length w reflexive (by decide)]
  simp only
  rw [cut_at_length w adjective (by decide)]
  simp only
  rw [cut_at_length w verb (by decide)]
  simp only
  rw [cut_at_length w noun (by decide)]

/-- Step 4 is the identity when RV is the word length. -/
theorem step4_at_length (w : List Char) : step4 w w.length = w := by
  unfold step4
  rw [cut_at_length w superlative (by decide)]
  simp only
  rw [cutNN_at_length w]
  simp only
  rw [cut_at_length w softSign (by decide)]

/-- `stem` leaves a word without vowels unchanged. -/
theorem stem_no_vowel (w : List Char) (h : ∀ c ∈ w, isVowel c = false) :
    stem w = w := by
  have hrv : find_rv w = w.length := by
    have := findRVAux_no_vowel w 0 h
    simpa [find_rv] using this
  have hr2 : find_r2 w = w.length := by
    unfold find_r2
    rw [searchVN_no_vowel w 0 h]
  unfold stem
  rw [hrv, hr2, step1_at_length, show step2 w w.length = w from ?_,
      show step3 w w.length = w from ?_, step4_at_length]
  · exact congrArg Prod.snd (cut_at_length w derivational (by decide))
  · exact congrArg Prod.snd (cut_at_length w iRule (by decide))

/-- R2 is positive when the second vowel/non-vowel search succeeds. -/
theorem find_r2_pos (w : List Char) (hw : w ≠ []) : 1 ≤ find_r2 w := by
  unfold find_r2
  have hlen : 0 < w.length := List.length_pos.mpr hw
  cases h1 : searchVNFrom w 0 with
  | none => show 1 ≤ w.length; omega
  | some r1 =>
    dsimp only
    cases h2 : searchVNFrom (w.drop r1) r1 with
    | none => show 1 ≤ w.length; omega
    | some m =>
      show 1 ≤ m
      have := searchVN_ge (w.drop r1) r1 m h2
      omega

/-! ### The spec-side findR2 agrees with the source's `find_r2` -/

/-- The recursive scan of the source over a dropped tail is the spec's
index scan: the end reported by `searchVNFrom` is two past the start
index found by `firstVNFromAux`, as long as the fuel covers the word. -/
theorem searchVN_eq_firstVNAux : ∀ (fuel : Nat) (w : List Char) (i : Nat),
    w.length ≤ i + fuel →
    searchVNFrom (w.drop i) i = Option.map (fun m => m + 2) (firstVNFromAux w fuel i) := by
  intro fuel
  induction fuel with
  | zero =>
    intro w i h
    rw [List.drop_eq_nil_of_le (by omega)]
    rfl
  | succ fuel ih =>
    intro w i h
    by_cases hi : i + 1 < w.length
    · have hi0 : i < w.length := by omega
      have hd0 : w.drop i = w[i] :: w.drop (i + 1) := (List.getElem_cons_drop w i hi0).symm
      have hd1 : w.drop (i + 1) = w[i + 1] :: w.drop (i + 2) := (List.getElem_cons_drop w (i + 1) hi).symm
      have hg0 : w.getD i ' ' = w[i] := List.getD_eq_getElem w ' ' hi0
      have hg1 : w.getD (i + 1) ' ' = w[i + 1] := List.getD_eq_getElem w ' ' hi
      rw [hd0, hd1]
      simp only [firstVNFromAux, hg0, hg1, decide_eq_true_eq, hi, decide_True,
        Bool.true_and]
      by_cases hc : (isVowel w[i] && !isVowel w[i + 1]) = true
      · rw [searchVNFrom, if_pos hc, if_pos hc]
        rfl
      · rw [searchVNFrom, if_neg hc, if_neg hc]
        rw [← hd1]
        exact ih w (i + 1) (by omega)
    · have hshort : (w.drop i).length ≤ 1 := by
        rw [List.length_drop]
        omega
      rw [searchVN_short (w.drop i) i hshort]
      simp only [firstVNFromAux]
      rw [if_neg (by simp [hi])]
      have := ih w (i + 1) (by omega)
      rw [searchVN_short (w.drop (i + 1)) (i + 1) (by rw [List.length_drop]; omega)] at this
      exact this.symm ▸ rfl

/-- The spec's index scan `firstVN` matches the source scan. -/
theorem searchVN_eq_firstVN (w : List Char) (i : Nat) :
    searchVNFrom (w.drop i) i = Option.map (fun m => m + 2) (firstVN w i) :=
  searchVN_eq_firstVNAux (w.length - i) w i (by omega)

/-- When an anchored rule matches the tail `ys` exactly but cannot match
any longer tail, cutting `p ++ ys` at any position inside `p` matches at
the start of `ys` and keeps the first `p.length + k` characters. -/
theorem cut_of_tail_match (r : Rule) (p ys : List Char) (pos k : Nat)
    (hpos : pos ≤ p.length) (hmatch : ruleMatchAt r ys = some k)
    (hnone : ∀ v : List Char, v ≠ [] → ruleMatchAt r (v ++ ys) = none) :
    cut (p ++ ys) r pos = (true, (p ++ ys).take (p.length + k)) := by
  unfold cut
  have hdrop : (p ++ ys).drop pos = p.drop pos ++ ys := by
    rw [List.drop_append_eq_append_drop, Nat.sub_eq_zero_of_le hpos, List.drop_zero]
  rw [hdrop, search_append r (p.drop pos) ys pos ?_]
  · have hplen : pos + (p.drop pos).length = p.length := by
      rw [List.length_drop]
      omega
    rw [hplen]
    cases ys with
    | nil => simp only [ruleSearchAux, hmatch]
    | cons y ys2 => simp only [ruleSearchAux, hmatch]
  · intro i hi
    rw [List.drop_append_eq_append_drop, Nat.sub_eq_zero_of_le (le_of_lt hi),
        List.drop_zero]
    apply hnone
    intro hnil
    have hlen := congrArg List.length hnil
    rw [List.length_drop, List.length_nil] at hlen
    omega

/-! ### Claim theorems -/

/-- C1: for every input word, `stem word` is a prefix of the word:
stemming only removes trailing characters, never substitutes, inserts or
reorders, so every retained character equals the input character at the
same position and the length never grows. -/
theorem c1_prefix_invariant : ∀ w : List Char, stem w <+: w := by
  intro w
  obtain ⟨n, hn⟩ := (stem_keeps w 0 (by omega) (by omega)).2.2
  rw [hn]
  exact List.take_prefix n w

/-- C2: no cut of steps 1, 2 or 4 removes a character at an index below
the gate position they receive (RV), step 3 never cuts below its gate
(R2), and consequently `stem` retains at least the first
`min RV R2` characters of the original word, with RV and R2 computed once
from the original word. -/
theorem c2_boundary_respect : ∀ (w : List Char) (pos : Nat),
    (∀ v : List Char, (step1 v pos).take pos = v.take pos)
  ∧ (∀ v : List Char, (step2 v pos).take pos = v.take pos)
  ∧ (∀ v : List Char, (step3 v pos).take pos = v.take pos)
  ∧ (∀ v : List Char, (step4 v pos).take pos = v.take pos)
  ∧ (stem w).take (min (find_rv w) (find_r2 w)) = w.take (min (find_rv w) (find_r2 w))
  ∧ min (find_rv w) (find_r2 w) ≤ (stem w).length := by
  intro w pos
  refine ⟨fun v => (step1_keeps v pos pos le_rfl).1,
      fun v => (step2_keeps v pos pos le_rfl).1,
      fun v => (step3_keeps v pos pos le_rfl).1,
      fun v => (step4_keeps v pos pos le_rfl).1, ?_, ?_⟩
  · exact (stem_keeps w _ (min_le_left _ _) (min_le_right _ _)).1
  · have h := (stem_keeps w (min (find_rv w) (find_r2 w))
        (min_le_left _ _) (min_le_right _ _)).2.1
    have hle := find_rv_le w
    omega

/-- C7: a word containing no character of the vowel set (for instance only
Cyrillic consonants, or only Latin letters) has RV and R2 equal to its
length, and `stem` returns it unchanged. -/
theorem c7_no_vowel_identity : ∀ w : List Char, (∀ c ∈ w, isVowel c = false) →
    find_rv w = w.length ∧ find_r2 w = w.length ∧ stem w = w := by
  intro w h
  refine ⟨?_, ?_, stem_no_vowel w h⟩
  · have := findRVAux_no_vowel w 0 h
    simpa [find_rv] using this
  · unfold find_r2
    rw [searchVN_no_vowel w 0 h]

/-- C7 witness: a word of only Latin letters passes through unchanged. -/
theorem c7_witness :
    find_rv ['a', 'b', 'c'] = (['a', 'b', 'c'] : List Char).length
  ∧ find_r2 ['a', 'b', 'c'] = (['a', 'b', 'c'] : List Char).length
  ∧ stem ['a', 'b', 'c'] = ['a', 'b', 'c'] :=
  c7_no_vowel_identity ['a', 'b', 'c'] (by decide)

/-- C8: stemming never signals an error: a cut whose rule matches nothing
returns `(false, word)` with the word unchanged (so every step passes a
non-matching word through), and `stem` of the empty string is the empty
string. -/
theorem c8_total_no_error : ∀ (w : List Char) (r : Rule) (pos : Nat),
    ((cut w r pos).1 = false → (cut w r pos).2 = w)
  ∧ ((cutNN w pos).1 = false → (cutNN w pos).2 = w)
  ∧ stem [] = [] := by
  intro w r pos
  exact ⟨cut_false w r pos, cutNN_false w pos, rfl⟩

/-- C8 witness: a concrete non-matching cut is a no-op. -/
theorem c8_witness : (cut ['б'] noun 0).2 = ['б'] ∧ (cutNN ['б'] 0).2 = ['б'] :=
  ⟨(c8_total_no_error ['б'] noun 0).1 (by decide),
   (c8_total_no_error ['б'] noun 0).2.1 (by decide)⟩

/-- C9: `find_r2` returns the offset after the second left-to-right
vowel/non-vowel occurrence, the second scan resuming at R1 (the offset
after the first occurrence), and the word length when either scan fails —
stated as agreement with `findR2Spec`, the direct transcription of the
spec's words. -/
theorem c9_find_r2_matches_spec : ∀ w : List Char, find_r2 w = findR2Spec w := by
  intro w
  unfold find_r2 findR2Spec
  have h0 := searchVN_eq_firstVN w 0
  rw [List.drop_zero] at h0
  rw [h0]
  cases firstVN w 0 with
  | none => rfl
  | some i =>
    show (match searchVNFrom (w.drop (i + 2)) (i + 2) with
          | none => w.length
          | some r2 => r2) =
        (match firstVN w (i + 2) with
          | none => w.length
          | some j => j + 2)
    rw [searchVN_eq_firstVN w (i + 2)]
    cases firstVN w (i + 2) with
    | none => rfl
    | some j => rfl

/-- C10: a non-empty word never stems to the empty word: with a vowel the
boundaries are at least 1 so the first character survives, and without a
vowel the word is unchanged. -/
theorem c10_nonempty_stem : ∀ w : List Char, w ≠ [] → stem w ≠ [] := by
  intro w hw
  by_cases hv : ∀ c ∈ w, isVowel c = false
  · rw [stem_no_vowel w hv]
    exact hw
  · push_neg at hv
    obtain ⟨c, hc, hcv⟩ := hv
    have hcv2 : isVowel c = true := by
      cases h : isVowel c
      · exact absurd h hcv
      · rfl
    have hrv : 1 ≤ find_rv w := by
      have := findRVAux_ge_of_vowel w 0 ⟨c, hc, hcv2⟩
      simpa [find_rv] using this
    have hr2 : 1 ≤ find_r2 w := find_r2_pos w hw
    have hk := (stem_keeps w 1 hrv hr2).2.1
    have hlen : 0 < w.length := List.length_pos.mpr hw
    have hpos : 0 < (stem w).length := by omega
    exact List.length_pos.mp hpos

/-- C10 witness: a concrete one-vowel word keeps its first character. -/
theorem c10_witness : stem ['а'] ≠ [] :=
  c10_nonempty_stem ['а'] (by decide)

/-- C5: step 1 executes exactly one of the gerund, adjective(+participle),
verb or noun branches: a gerund match short-circuits everything else; the
reflexive cut is attempted unconditionally before the branching; the
participle cut is attempted exactly when the adjective cut matched; verb
fires only after the adjective failed and noun only after the verb failed,
so at most one of the gerund/verb/noun cuts fires — stated on the
instrumented `step1Traced`, which computes the same word as `step1`. -/
theorem c5_step1_branching : ∀ (w : List Char) (rv : Nat),
    (step1Traced w rv).1 = step1 w rv
  ∧ (step1Traced w rv).2.gerund = (cut w perfectiveGerund rv).1
  ∧ (!(step1Traced w rv).2.gerund
      || ((step1Traced w rv).2.reflexive == none
          && (step1Traced w rv).2.adjective == none
          && (step1Traced w rv).2.participle == none
          && (step1Traced w rv).2.verb == none
          && (step1Traced w rv).2.noun == none)) = true
  ∧ ((step1Traced w rv).2.gerund || (step1Traced w rv).2.reflexive.isSome) = true
  ∧ (step1Traced w rv).2.participle.isSome = ((step1Traced w rv).2.adjective == some true)
  ∧ (!((step1Traced w rv).2.adjective == some true)
      || ((step1Traced w rv).2.verb == none && (step1Traced w rv).2.noun == none)) = true
  ∧ (!((step1Traced w rv).2.verb == some true) || (step1Traced w rv).2.noun == none) = true
  ∧ ((step1Traced w rv).2.verb == some false) = (step1Traced w rv).2.noun.isSome := by
  intro w rv
  rcases h1 : cut w perfectiveGerund rv with ⟨b1, w1⟩
  rcases h2 : cut w1 reflexive rv with ⟨b2, w2⟩
  rcases h3 : cut w2 adjective rv with ⟨b3, w3⟩
  rcases h4 : cut w3 verb rv with ⟨b4, w4⟩
  rcases h5 : cut w4 noun rv with ⟨b5, w5⟩
  rcases h6 : cut w3 participle rv with ⟨b6, w6⟩
  cases b1 <;> cases b3 <;> cases b4 <;>
    simp [step1, step1Traced, h1, h2, h3, h4, h5, h6]

/-- C6 counterexample: the claim says the `нн` collapse leaves a single
`н` at the end; on the word `ннн` with RV 0 the collapse fires (and the
soft-sign strip is skipped), one `н` is removed, but the result `нн`
still ends in a double `н`. -/
theorem c6_counterexample :
    step4Traced ['н', 'н', 'н'] 0 = (['н', 'н'], ⟨false, true, none⟩) := by decide

/-- C6 amended: step 4 never applies both the `нн` collapse and the
soft-sign strip — the soft sign is attempted exactly when the collapse
(which matches a final `н` only when the preceding character is also `н`)
did not match — and the collapse removes exactly the one final `н`, so
the result ends in `н` (though it may still end in `нн` when a third `н`
precedes the collapsed pair). -/
theorem c6_amended : ∀ (w : List Char) (rv : Nat) (v : List Char) (pos : Nat),
    (step4Traced w rv).1 = step4 w rv
  ∧ (step4Traced w rv).2.nn = (cutNN ((cut w superlative rv).2) rv).1
  ∧ (!(step4Traced w rv).2.nn || ((step4Traced w rv).2.soft == none)) = true
  ∧ ((step4Traced w rv).2.nn || (step4Traced w rv).2.soft.isSome) = true
  ∧ ((cutNN v pos).1 = true →
      (cutNN v pos).2 = v.take (v.length - 1) ∧ v.drop (v.length - 2) = ['н', 'н'])
  ∧ (∀ u : List Char, pos ≤ u.length + 1 →
      cutNN (u ++ ['н', 'н']) pos = (true, u ++ ['н'])) := by
  intro w rv v pos
  refine ⟨?_, ?_, ?_, ?_, ?_, ?_⟩
  case _ | _ | _ | _ =>
    rcases h1 : cut w superlative rv with ⟨b1, w1⟩
    rcases h2 : cutNN w1 rv with ⟨b2, w2⟩
    rcases h3 : cut w2 softSign rv with ⟨b3, w3⟩
    cases b2 <;> simp [step4, step4Traced, h1, h2, h3]
  case _ =>
    unfold cutNN
    split
    · rename_i hcond
      exact fun _ => ⟨rfl, hcond.1⟩
    · intro h
      cases h
  case _ =>
    intro u hu
    have hlen : (u ++ ['н', 'н']).length = u.length + 2 := by
      simp [List.length_append]
    have hc1 : (u ++ ['н', 'н']).drop ((u ++ ['н', 'н']).length - 2) = ['н', 'н'] := by
      rw [hlen]
      have h2 : u.length + 2 - 2 = u.length := by omega
      rw [h2, List.drop_left u ['н', 'н']]
    have hc2 : pos + 1 ≤ (u ++ ['н', 'н']).length := by
      rw [hlen]; omega
    have htake : (u ++ ['н', 'н']).take ((u ++ ['н', 'н']).length - 1) = u ++ ['н'] := by
      rw [hlen, List.take_append_eq_append_take]
      rw [List.take_of_length_le (by omega)]
      congr 1
      have h21 : u.length + 2 - 1 - u.length = 1 := by omega
      rw [h21]
      decide
    unfold cutNN
    rw [if_pos ⟨hc1, hc2⟩, htake]

/-- C6 amended witness: a word ending in exactly `нн` has the collapse
fire and remove one `н`. -/
theorem c6_amended_witness :
    (cutNN ['н', 'н'] 0).2 = (['н', 'н'] : List Char).take ((['н', 'н'] : List Char).length - 1)
  ∧ cutNN ([] ++ ['н', 'н']) 0 = (true, [] ++ ['н']) :=
  ⟨((c6_amended [] 0 ['н', 'н'] 0).2.2.2.2.1 (by decide)).1,
   (c6_amended [] 0 ['н', 'н'] 0).2.2.2.2.2 [] (by decide)⟩

/-- C3 counterexample: the claim says an ignore-class suffix such as
`вши` is still removed when the preceding character is not in the class;
but the class letter is part of the compiled pattern
`[ая](в|вши|вшись)`, so on `овши` (preceded by `о`) the perfective-gerund
cut matches nothing at all and the word passes through unchanged, instead
of matching and cutting to `о`. -/
theorem c3_counterexample :
    cut ['о', 'в', 'ш', 'и'] perfectiveGerund 0 = (false, ['о', 'в', 'ш', 'и']) := by
  decide

/-- Characterization of a perfective-gerund match on a whole tail: it is
either the ignore branch — a class letter `а`/`я` directly followed by
one of `в`, `вши`, `вшись`, with ignore length 1 — or one of the six
non-ignore literals `ив`, `ивши`, `ившись`, `ыв`, `ывши`, `ывшись`, with
ignore length 0. -/
theorem pg_match_cases (t : List Char) (k : Nat)
    (h : ruleMatchAt perfectiveGerund t = some k) :
    (k = 1 ∧ ∃ c, c ∈ (['а', 'я'] : List Char) ∧
        ∃ a, a ∈ ([['в'], ['в', 'ш', 'и'], ['в', 'ш', 'и', 'с', 'ь']] : List (List Char)) ∧
        t = c :: a)
  ∨ (k = 0 ∧ t ∈ ([['и', 'в'], ['и', 'в', 'ш', 'и'], ['и', 'в', 'ш', 'и', 'с', 'ь'],
        ['ы', 'в'], ['ы', 'в', 'ш', 'и'], ['ы', 'в', 'ш', 'и', 'с', 'ь']] : List (List Char))) := by
  cases t with
  | nil =>
    have hnil : ruleMatchAt perfectiveGerund ([] : List Char) = none := by decide
    rw [hnil] at h
    cases h
  | cons c2 rest =>
    simp only [ruleMatchAt, perfectiveGerund, branchMatch] at h
    by_cases hc : c2 ∈ (['а', 'я'] : List Char) ∧
        rest ∈ ([['в'], ['в', 'ш', 'и'], ['в', 'ш', 'и', 'с', 'ь']] : List (List Char))
    · rw [if_pos hc] at h
      simp at h
      exact Or.inl ⟨by omega, c2, hc.1, rest, hc.2, rfl⟩
    · rw [if_neg hc] at h
      by_cases hm : (c2 :: rest) ∈ ([['и', 'в'], ['и', 'в', 'ш', 'и'],
          ['и', 'в', 'ш', 'и', 'с', 'ь'], ['ы', 'в'], ['ы', 'в', 'ш', 'и'],
          ['ы', 'в', 'ш', 'и', 'с', 'ь']] : List (List Char))
      · rw [if_pos hm] at h
        simp at h
        exact Or.inr ⟨by omega, hm⟩
      · rw [if_neg hm] at h
        simp at h

/-- When the ignore branch of the perfective-gerund rule matches the tail
`c :: aTail` exactly and no longer tail matches, the cut fires at the
letter `c` and keeps it, removing exactly `aTail`. -/
theorem pg_ignore_cut (p : List Char) (c : Char) (aTail : List Char) (pos : Nat)
    (hpos : pos ≤ p.length)
    (hmatch : ruleMatchAt perfectiveGerund (c :: aTail) = some 1)
    (hnone : ∀ v : List Char, v ≠ [] →
      ruleMatchAt perfectiveGerund (v ++ c :: aTail) = none) :
    cut (p ++ c :: aTail) perfectiveGerund pos = (true, p ++ [c]) := by
  rw [cut_of_tail_match perfectiveGerund p (c :: aTail) pos 1 hpos hmatch hnone]
  congr 1
  rw [List.take_append_eq_append_take, List.take_of_length_le (by omega)]
  congr 1
  have h1 : p.length + 1 - p.length = 1 := by omega
  rw [h1, List.take_succ_cons, List.take_zero]

/-- C3 amended: an alternative carrying an ignore-prefix class matches if
and only if the character immediately before the suffix belongs to the
class (the letter is part of the match, so its own index must be at or
after the boundary); the cut then keeps that letter and removes exactly
the suffix — for every stem and each of `в`, `вши`, `вшись`.  When the
preceding character is not in the class, the ignore-class alternatives
themselves cannot match: any match of the rule is then one of the six
separate non-ignore literals (`ив|ивши|ившись|ыв|ывши|ывшись`), cut at
its own start offset, and a cut that matches nothing returns the word
unchanged. -/
theorem c3_amended : ∀ (p : List Char) (c : Char) (a t : List Char) (pos k : Nat),
    (c ∈ (['а', 'я'] : List Char) →
      a ∈ ([['в'], ['в', 'ш', 'и'], ['в', 'ш', 'и', 'с', 'ь']] : List (List Char)) →
      pos ≤ p.length →
      cut (p ++ c :: a) perfectiveGerund pos = (true, p ++ [c]))
  ∧ (a ∈ ([['в'], ['в', 'ш', 'и'], ['в', 'ш', 'и', 'с', 'ь']] : List (List Char)) →
      (ruleMatchAt perfectiveGerund (c :: a) = some 1 ↔ c ∈ (['а', 'я'] : List Char)))
  ∧ (ruleMatchAt perfectiveGerund t = some k →
      (k = 1 ∧ ∃ c2, c2 ∈ (['а', 'я'] : List Char) ∧
          ∃ a2, a2 ∈ ([['в'], ['в', 'ш', 'и'], ['в', 'ш', 'и', 'с', 'ь']] : List (List Char)) ∧
          t = c2 :: a2)
    ∨ (k = 0 ∧ t ∈ ([['и', 'в'], ['и', 'в', 'ш', 'и'], ['и', 'в', 'ш', 'и', 'с', 'ь'],
          ['ы', 'в'], ['ы', 'в', 'ш', 'и'], ['ы', 'в', 'ш', 'и', 'с', 'ь']] : List (List Char))))
  ∧ ((cut t perfectiveGerund pos).1 = false → (cut t perfectiveGerund pos).2 = t) := by
  intro p c a t pos k
  refine ⟨?_, ?_, pg_match_cases t k, cut_false t perfectiveGerund pos⟩
  · intro hc ha hpos
    fin_cases ha
    · refine pg_ignore_cut p c ['в'] pos hpos (by fin_cases hc <;> decide) ?_
      intro v hv
      apply ruleMatchAt_none_P perfectiveGerund
          (fun u => decide (3 ≤ u.length) && decide (u.drop (u.length - 1) = ['в']))
          (by decide)
      have hvp : 0 < v.length := List.length_pos.mpr hv
      have hlen : (v ++ c :: ['в']).length = v.length + 2 := by
        simp [List.length_append]
      rw [Bool.and_eq_true, decide_eq_true_eq, decide_eq_true_eq]
      refine ⟨by rw [hlen]; omega, ?_⟩
      rw [hlen]
      have h1 : v.length + 2 - 1 = v.length + 1 := by omega
      rw [h1, List.drop_append_eq_append_drop, List.drop_eq_nil_of_le (by omega),
          List.nil_append]
      have h2 : v.length + 1 - v.length = 1 := by omega
      rw [h2, List.drop_succ_cons, List.drop_zero]
    · refine pg_ignore_cut p c ['в', 'ш', 'и'] pos hpos (by fin_cases hc <;> decide) ?_
      intro v hv
      apply ruleMatchAt_none_P perfectiveGerund
          (fun u => decide (5 ≤ u.length) && decide (u.drop (u.length - 3) = ['в', 'ш', 'и']))
          (by decide)
      have hvp : 0 < v.length := List.length_pos.mpr hv
      have hlen : (v ++ c :: ['в', 'ш', 'и']).length = v.length + 4 := by
        simp [List.length_append]
      rw [Bool.and_eq_true, decide_eq_true_eq, decide_eq_true_eq]
      refine ⟨by rw [hlen]; omega, ?_⟩
      rw [hlen]
      have h1 : v.length + 4 - 3 = v.length + 1 := by omega
      rw [h1, List.drop_append_eq_append_drop, List.drop_eq_nil_of_le (by omega),
          List.nil_append]
      have h2 : v.length + 1 - v.length = 1 := by omega
      rw [h2, List.drop_succ_cons, List.drop_zero]
    · refine pg_ignore_cut p c ['в', 'ш', 'и', 'с', 'ь'] pos hpos
          (by fin_cases hc <;> decide) ?_
      intro v hv
      apply ruleMatchAt_none_P perfectiveGerund (fun u => decide (7 ≤ u.length)) (by decide)
      have hvp : 0 < v.length := List.length_pos.mpr hv
      simp only [decide_eq_true_eq, List.length_append, List.length_cons]
      omega
  · intro ha
    constructor
    · intro h1
      rcases pg_match_cases (c :: a) 1 h1 with ⟨_, c2, hc2, a2, _, heq⟩ | ⟨h10, _⟩
      · injection heq with hceq _
        rw [hceq]
        exact hc2
      · exact absurd h10 (by decide)
    · intro hc
      fin_cases hc <;> fin_cases ha <;> decide

/-- C3 amended witness: `сказавшись` at RV 3 keeps the ignore letter `а`
and loses exactly `вшись`; the ignore branch matches `авши`; the
non-ignore alternative `ивши` matches with ignore length 0; and the
non-matching `овши` cut is a no-op. -/
theorem c3_amended_witness :
    cut (['с', 'к', 'а', 'з'] ++ 'а' :: ['в', 'ш', 'и', 'с', 'ь']) perfectiveGerund 3
      = (true, ['с', 'к', 'а', 'з'] ++ ['а'])
  ∧ ruleMatchAt perfectiveGerund ('а' :: ['в', 'ш', 'и']) = some 1
  ∧ (['и', 'в', 'ш', 'и'] : List Char) ∈
      ([['и', 'в'], ['и', 'в', 'ш', 'и'], ['и', 'в', 'ш', 'и', 'с', 'ь'],
        ['ы', 'в'], ['ы', 'в', 'ш', 'и'], ['ы', 'в', 'ш', 'и', 'с', 'ь']] : List (List Char))
  ∧ (cut ['о', 'в', 'ш', 'и'] perfectiveGerund 0).2 = ['о', 'в', 'ш', 'и'] := by
  refine ⟨(c3_amended ['с', 'к', 'а', 'з'] 'а' ['в', 'ш', 'и', 'с', 'ь'] [] 3 0).1
      (by decide) (by decide) (by decide),
    ((c3_amended [] 'а' ['в', 'ш', 'и'] [] 0 0).2.1 (by decide)).mpr (by decide),
    ?_,
    (c3_amended [] 'а' ['в'] ['о', 'в', 'ш', 'и'] 0 0).2.2.2 (by decide)⟩
  rcases (c3_amended [] 'а' ['в'] ['и', 'в', 'ш', 'и'] 0 0).2.2.1 (by decide) with
    ⟨h10, _⟩ | ⟨_, hmem⟩
  · exact absurd h10 (by decide)
  · exact hmem

/-- C4: the leftmost-start search means the longest alternative anchoring
at or after the gate wins: whenever any alternative matches at start `s`,
the search succeeds at a start no later than `s` (so a shorter
tail-substring alternative can never pre-empt a longer one), and in
particular a word ending in `ейше` at/after the gate loses all of `ейше`
from the superlative rule and a word ending in `ие` loses all of `ие`
from the noun rule. -/
theorem c4_longest_match : ∀ pos : Nat,
    (∀ (r : Rule) (w : List Char) (s k : Nat), pos ≤ s → s ≤ w.length →
      ruleMatchAt r (w.drop s) = some k →
      ∃ s2 k2, ruleSearchAux r (w.drop pos) pos = some (s2, k2) ∧ s2 ≤ s)
  ∧ (∀ p : List Char, pos ≤ p.length →
      cut (p ++ ['е', 'й', 'ш', 'е']) superlative pos = (true, p))
  ∧ (∀ p : List Char, pos ≤ p.length →
      cut (p ++ ['и', 'е']) noun pos = (true, p)) := by
  intro pos
  refine ⟨?_, ?_, ?_⟩
  · intro r w s k hps hsw hm
    have hdd : (w.drop pos).drop (s - pos) = w.drop s := by
      rw [List.drop_drop]
      congr 1
      omega
    rw [← hdd] at hm
    obtain ⟨s2, k2, hs2, hle⟩ := search_complete r (w.drop pos) pos (s - pos) k hm
    exact ⟨s2, k2, hs2, by omega⟩
  · intro p hpos
    have hmatch : ruleMatchAt superlative ['е', 'й', 'ш', 'е'] = some 0 := by decide
    have hnone : ∀ v : List Char, v ≠ [] →
        ruleMatchAt superlative (v ++ ['е', 'й', 'ш', 'е']) = none := by
      intro v hv
      apply ruleMatchAt_none_P superlative (fun t => decide (5 ≤ t.length)) (by decide)
      have hvlen : 0 < v.length := List.length_pos.mpr hv
      simp only [decide_eq_true_eq, List.length_append, List.length_cons, List.length_nil]
      omega
    rw [cut_of_tail_match superlative p ['е', 'й', 'ш', 'е'] pos 0 hpos hmatch hnone]
    rw [Nat.add_zero, List.take_left p ['е', 'й', 'ш', 'е']]
  · intro p hpos
    have hmatch : ruleMatchAt noun ['и', 'е'] = some 0 := by decide
    have hnone : ∀ v : List Char, v ≠ [] →
        ruleMatchAt noun (v ++ ['и', 'е']) = none := by
      intro v hv
      apply ruleMatchAt_none_P noun
          (fun t => decide (3 ≤ t.length) && decide (t.drop (t.length - 2) = ['и', 'е']))
          (by decide)
      have hvp : 0 < v.length := List.length_pos.mpr hv
      have h1 : (v ++ ['и', 'е']).length = v.length + 2 := by
        simp [List.length_append]
      rw [Bool.and_eq_true, decide_eq_true_eq, decide_eq_true_eq]
      refine ⟨by rw [h1]; omega, ?_⟩
      rw [h1]
      have h2 : v.length + 2 - 2 = v.length := by omega
      rw [h2, List.drop_left v ['и', 'е']]
    rw [cut_of_tail_match noun p ['и', 'е'] pos 0 hpos hmatch hnone]
    rw [Nat.add_zero, List.take_left p ['и', 'е']]

/-- C4 witness: at gate 0, the search finds the full `ейше` and `ие`
endings rather than their shorter tail-substrings `ейш` and `е`. -/
theorem c4_witness :
    (∃ s2 k2, ruleSearchAux superlative ((['е', 'й', 'ш', 'е'] : List Char).drop 0) 0
        = some (s2, k2) ∧ s2 ≤ 0)
  ∧ cut (['с'] ++ ['е', 'й', 'ш', 'е']) superlative 0 = (true, ['с'])
  ∧ cut (['с'] ++ ['и', 'е']) noun 0 = (true, ['с']) :=
  ⟨(c4_longest_match 0).1 superlative ['е', 'й', 'ш', 'е'] 0 0 (by decide) (by decide)
      (by decide),
   (c4_longest_match 0).2.1 ['с'] (by decide),
   (c4_longest_match 0).2.2 ['с'] (by decide)⟩

end Stemmer
